import Mathlib

/-!
Verification of the version-arithmetic and increment-policy core of
`jaraco.versioning` (file `jaraco/versioning.py`), via a shallow embedding.

A parsed version is modelled by its release segments together with the
optional pre-release and dev markers; the external parsing, rendering and
comparison primitives (provided by `packaging.version` and excluded from the
source core) are modelled from the spec on the numeric fragment the policy
layer exercises.
-/

namespace Versioning

/-- A parsed version: non-empty list of release segments, optional
pre-release marker (letter and number, e.g. `("a", 1)` for `a1`) and optional
dev marker. Mirrors the fields of `packaging.version.Version` that the
source manipulates (`_version.release`, `pre`, `dev`). -/
structure Version where
  release : List Nat
  pre : Option (String × Nat)
  dev : Option Nat
deriving DecidableEq, Repr

/-- `Version.is_prerelease` of `packaging`: true when a pre-release or dev
marker is present. -/
def Version.is_prerelease (v : Version) : Bool :=
  v.pre.isSome || v.dev.isSome

/-- `find(pred, items)`: index of the first element satisfying `pred`,
`None` when there is none (source lines 8–21). -/
def find {α : Type} (pred : α → Bool) : List α → Option Nat
  | [] => none
  | x :: xs => if pred x then some 0 else (find pred xs).map (· + 1)

/-- `rfind(pred, items)`: `-find(pred, reversed(items)) - 1`. When `find`
returns `None`, the Python expression `-None - 1` raises `TypeError`,
modelled by `none` (source lines 24–33). -/
def rfind {α : Type} (pred : α → Bool) (items : List α) : Option Int :=
  (find pred items.reverse).map (fun i => -(i : Int) - 1)

/-- Element-wise sum of release segment lists, zero-padding the shorter on
the right: `itertools.starmap(operator.add, itertools.zip_longest(..., fillvalue=0))`. -/
def zipAdd : List Nat → List Nat → List Nat
  | [], ys => ys
  | xs, [] => xs
  | x :: xs, y :: ys => (x + y) :: zipAdd xs ys

/-- `SummableVersion.__add__`: the result's release segments are the
element-wise zero-padded sum; the result is re-built from its dotted string,
so it carries no pre-release or dev marker. -/
def Version.add (a b : Version) : Version :=
  { release := zipAdd a.release b.release, pre := none, dev := none }

/-- Failure modes of the embedded fallible operations: `parseError` models
`packaging.version.InvalidVersion`, `typeError` the `TypeError` raised by
`-None - 1` in `rfind`. -/
inductive VErr
  | parseError
  | typeError
deriving DecidableEq, Repr

/-- `SummableVersion.reset_less_significant(self, significant_version)`:
compute the position after the last nonzero segment of
`significant_version`, keep `self`'s segments before that position and pad
with zeros up to `significant_version`'s length. When `significant_version`
has no nonzero segment, `rfind` returns `None` and the arithmetic on it
raises `TypeError`. The trailing `self.__init__(str(self))` round-trips the
release tuple and markers, so it is the identity here. -/
def Version.reset_less_significant (v significant_version : Version) :
    Except VErr Version :=
  let version_len := significant_version.release.length
  match rfind (fun x => x != 0) significant_version.release with
  | none => .error .typeError
  | some r =>
    let significant_pos : Int := (version_len : Int) + r + 1
    let new_release :=
      v.release.take significant_pos.toNat ++
        List.replicate (version_len - significant_pos.toNat) 0
    .ok { v with release := new_release }

/-- `reduce(combine, ...)` with `combine(subver, ver) = subver / 10 + ver`:
the accumulator starts at the first element and is divided by ten at each
step. The empty case is unreachable: a parsed version has at least one
release segment. -/
def foldNum : List Nat → ℚ
  | [] => 0
  | x :: xs => xs.foldl (fun subver ver => subver / 10 + (ver : ℚ)) (x : ℚ)

/-- `SummableVersion.as_number`: `reduce(combine, reversed(release))`, over
exact rationals. -/
def Version.as_number (v : Version) : ℚ :=
  foldNum v.release.reverse

/-- The fold the spec's words describe for `as_number`: start with the last
segment and compute `acc = s_i / 10 + acc` for `i` from `n-1` down to `0`
(the incoming segment, not the accumulator, is divided by ten). Stated for
comparison with `Version.as_number`, the embedding of the code. -/
def as_number_spec (v : Version) : ℚ :=
  match v.release.reverse with
  | [] => 0
  | x :: xs => xs.foldl (fun acc s => (s : ℚ) / 10 + acc) (x : ℚ)

/-- Split a character list on `'.'` separators. -/
def splitSegs : List Char → List (List Char)
  | [] => [[]]
  | c :: rest =>
    if c = '.' then [] :: splitSegs rest
    else
      match splitSegs rest with
      | [] => [[c]]
      | s :: ss => (c :: s) :: ss

/-- Value of a decimal digit character, `none` for a non-digit. -/
def digitVal (c : Char) : Option Nat :=
  if c.isDigit then some (c.toNat - 48) else none

/-- Parse a non-empty all-digit segment as a natural number. -/
def parseSeg (cs : List Char) : Option Nat :=
  match cs with
  | [] => none
  | _ :: _ => (cs.mapM digitVal).map (fun ds => ds.foldl (fun n d => n * 10 + d) 0)

/-- Modelled from the spec: the external parsing primitive
(`packaging.version.Version(tag)`), restricted to the plain dotted numeric
grammar the policy layer exercises; any other string fails to parse. -/
def parseVersion (s : String) : Option Version :=
  ((splitSegs s.toList).mapM parseSeg).map
    (fun rel => { release := rel, pre := none, dev := none })

/-- Dotted rendering of the release segments, e.g. `[3, 2, 1]` to `"3.2.1"`. -/
def releaseStr (rel : List Nat) : String :=
  String.intercalate "." (rel.map (fun n => toString n))

/-- Modelled from the spec: the external rendering primitive (`str` of a
`packaging` version): dotted release segments, then the pre-release marker
(e.g. `a1`), then the dev marker (e.g. `.dev0`). -/
def versionStr (v : Version) : String :=
  releaseStr v.release ++
    (match v.pre with
     | some (l, n) => l ++ toString n
     | none => "") ++
    (match v.dev with
     | some n => ".dev" ++ toString n
     | none => "")

/-- Three-way comparison of naturals, used by the spec-modelled version
comparison primitive. -/
def cmpNat (m n : Nat) : Ordering :=
  if m < n then .lt else if m = n then .eq else .gt

/-- Lexicographic three-way comparison of segment lists (a shorter list that
is a prefix of the other compares below it). -/
def cmpSeg : List Nat → List Nat → Ordering
  | [], [] => .eq
  | [], _ :: _ => .lt
  | _ :: _, [] => .gt
  | x :: xs, y :: ys =>
    match cmpNat x y with
    | .eq => cmpSeg xs ys
    | o => o

/-- Drop trailing zero segments; comparing the stripped lists
lexicographically is the spec's "compare element-wise after zero-padding the
shorter to the longer's length". -/
def stripZeros (xs : List Nat) : List Nat :=
  (xs.reverse.dropWhile (fun x => x == 0)).reverse

/-- Rank used to order versions with equal release segments: a pre-release
sorts below the equivalent plain release. -/
def rank (v : Version) : Nat :=
  if v.is_prerelease then 0 else 1

/-- Modelled from the spec: the external comparison primitive with
"standard precedence rules — numeric release segments compared
lexicographically by padding with zeros, pre-release < release". -/
def cmpVersion (a b : Version) : Ordering :=
  match cmpSeg (stripZeros a.release) (stripZeros b.release) with
  | .eq => cmpNat (rank a) (rank b)
  | o => o

/-- Modelled from the spec: equality of versions as values (Python `==` on
parsed versions): equal release segments up to trailing zeros and equal
markers. -/
def vkey (v : Version) : List Nat × Option (String × Nat) × Option Nat :=
  (stripZeros v.release, v.pre, v.dev)

/-- One step of Python's `max` over an iterable: keep the accumulator unless
the next element compares strictly greater. -/
def max_step (acc x : Version) : Version :=
  if cmpVersion acc x = .lt then x else acc

/-- `Versioned.__best_version`: `max(versions)`, with the empty-sequence
`ValueError` swallowed into `None`. -/
def best_version : List Version → Option Version
  | [] => none
  | v :: vs => some (vs.foldl max_step v)

/-- `Versioned.__versions_from_tags`: parse each tag, silently skipping the
ones that fail to parse. -/
def versions_from_tags (tags : List String) : List Version :=
  tags.filterMap parseVersion

/-- The repository collaborator, as seen by the policy layer: working-copy
tags (`get_tags()`), parent tags (`get_parent_tags('tip')`), the full
historical tag list (`get_repo_tags()`, already projected to its `.tag`
strings) and the modification flag (`is_modified()`). -/
structure Repo where
  tags : List String
  parent_tags : List String
  repo_tags : List String
  modified : Bool

/-- `Versioned.get_tagged_version`: use the working-copy tags, except that
when `'tip'` is among them and the working copy is unmodified the parent
tags are used instead; then the best parseable version, or `None`. -/
def get_tagged_version (repo : Repo) : Option Version :=
  let tags := repo.tags
  let tags :=
    if "tip" ∈ tags ∧ repo.modified = false then repo.parent_tags else tags
  best_version (versions_from_tags tags)

/-- `Versioned.get_latest_version`: best parseable version among all
historical repository tags, or `None`. -/
def get_latest_version (repo : Repo) : Option Version :=
  best_version (versions_from_tags repo.repo_tags)

/-- `Versioned.semantic_increment`: the fixed symbolic-increment table. -/
def semantic_increment (s : String) : Option String :=
  if s = "major" then some "1"
  else if s = "minor" then some "0.1"
  else if s = "patch" then some "0.0.1"
  else none

/-- Result of `infer_next_version`: either a string (the unparsed increment,
or the rendered finalized pre-release) or a version value. -/
inductive NextResult
  | str (s : String)
  | ver (v : Version)
deriving DecidableEq, Repr

/-- `str()` applied to the result, as the doctests do. -/
def resultStr : NextResult → String
  | .str s => s
  | .ver v => versionStr v

/-- `Versioned.infer_next_version(last_version, increment)`: resolve the
symbolic increment, return it as-is when there is no last version, strip the
markers of a pre-release last version, otherwise parse the increment, add it
to the last version and reset the less significant segments. -/
def infer_next_version (last_version : Option Version) (increment : String) :
    Except VErr NextResult :=
  let increment := (semantic_increment increment).getD increment
  match last_version with
  | none => .ok (.str increment)
  | some last =>
    if last.is_prerelease then
      .ok (.str (versionStr { last with pre := none, dev := none }))
    else
      match parseVersion increment with
      | none => .error .parseError
      | some inc =>
        (Version.reset_less_significant (Version.add last inc) inc).map
          NextResult.ver

/-! ## Helper lemmas -/

theorem parse_not_semantic {inc : String} {v : Version}
    (h : parseVersion inc = some v) : semantic_increment inc = none := by
  unfold semantic_increment
  by_cases h1 : inc = "major"
  · subst h1
    have hp : parseVersion "major" = none := by decide
    rw [hp] at h
    exact Option.noConfusion h
  by_cases h2 : inc = "minor"
  · subst h2
    have hp : parseVersion "minor" = none := by decide
    rw [hp] at h
    exact Option.noConfusion h
  by_cases h3 : inc = "patch"
  · subst h3
    have hp : parseVersion "patch" = none := by decide
    rw [hp] at h
    exact Option.noConfusion h
  simp [h1, h2, h3]

theorem find_eq_none {α : Type} (pred : α → Bool) (l : List α)
    (h : ∀ x ∈ l, pred x = false) : find pred l = none := by
  induction l with
  | nil => rfl
  | cons x xs ih =>
    have hx := h x (List.mem_cons_self x xs)
    simp [find, hx, ih fun y hy => h y (List.mem_cons_of_mem x hy)]

/-! ## Claims about `infer_next_version` and the arithmetic layer -/

theorem zipAdd_comm (xs ys : List Nat) : zipAdd xs ys = zipAdd ys xs := by
  induction xs generalizing ys with
  | nil => cases ys <;> rfl
  | cons x xs ih =>
    cases ys with
    | nil => rfl
    | cons y ys => simp [zipAdd, ih, Nat.add_comm]

/-- C7: `add` is commutative: for all versions `a` and `b`,
`add a b = add b a`, where `add` sums the release-segment sequences
element-wise after zero-padding the shorter to the longer's length. -/
theorem c7_add_comm : ∀ a b : Version, a.add b = b.add a := by
  intro a b
  simp [Version.add, zipAdd_comm]

/-- C4: `infer_next_version` resolves the symbolic increments to dotted
vectors before any arithmetic (`major` to `"1"`, `minor` to `"0.1"`, `patch`
to `"0.0.1"`, so that for any last version the symbolic increment behaves
exactly as its dotted form), and in particular
`infer_next_version("3.1.2", "major") = "4"`, `... "minor" ... = "3.2"`,
`... "patch" ... = "3.1.3"`. -/
theorem c4_semantic_increments :
    semantic_increment "major" = some "1" ∧
    semantic_increment "minor" = some "0.1" ∧
    semantic_increment "patch" = some "0.0.1" ∧
    (∀ last, infer_next_version last "major" = infer_next_version last "1") ∧
    (∀ last, infer_next_version last "minor" = infer_next_version last "0.1") ∧
    (∀ last, infer_next_version last "patch" = infer_next_version last "0.0.1") ∧
    (infer_next_version (some ⟨[3, 1, 2], none, none⟩) "major").map resultStr
      = .ok "4" ∧
    (infer_next_version (some ⟨[3, 1, 2], none, none⟩) "minor").map resultStr
      = .ok "3.2" ∧
    (infer_next_version (some ⟨[3, 1, 2], none, none⟩) "patch").map resultStr
      = .ok "3.1.3" :=
  ⟨rfl, rfl, rfl, fun _ => rfl, fun _ => rfl, fun _ => rfl, rfl, rfl, rfl⟩

/-- C2 (counterexample): the claim that `infer_next_version(None, inc)`
returns `inc` itself for every increment string, including the symbolic
identifiers, fails at `inc = "major"`: the code resolves the symbolic
identifier first and returns `"1"`. -/
theorem c2_counterexample :
    infer_next_version none "major" ≠ .ok (.str "major") := by
  intro h
  have h1 : infer_next_version none "major" = .ok (.str "1") := rfl
  rw [h1] at h
  injection h with h2
  injection h2 with h3
  exact absurd h3 (by decide)

/-- C2 (amended): when the last version is absent, the increment string is
returned as-is for every increment string that is not one of the symbolic
identifiers (a symbolic identifier is first resolved to its dotted form). -/
theorem c2_no_last_version (inc : String)
    (h : semantic_increment inc = none) :
    infer_next_version none inc = .ok (.str inc) := by
  simp [infer_next_version, h]

/-- Witness for C2: `infer_next_version(None, "0.1") = "0.1"`. -/
theorem c2_no_last_version_witness :
    infer_next_version none "0.1" = .ok (.str "0.1") :=
  c2_no_last_version "0.1" rfl

/-- C3: for every pre-release last version and every increment,
`infer_next_version` strips the pre-release/dev markers and returns the
rendered plain release, performing no arithmetic; in particular
`infer_next_version("3.1a1", "0.0.1") = "3.1"`. -/
theorem c3_prerelease_finalized :
    (∀ (last : Version) (inc : String), last.is_prerelease = true →
      infer_next_version (some last) inc =
        .ok (.str (versionStr { last with pre := none, dev := none }))) ∧
    (infer_next_version (some ⟨[3, 1], some ("a", 1), none⟩) "0.0.1").map
        resultStr = .ok "3.1" := by
  refine ⟨?_, rfl⟩
  intro last inc h
  simp [infer_next_version, h]

/-- Witness for C3: the general statement applied to `3.1a1` and `0.0.1`. -/
theorem c3_prerelease_finalized_witness :
    infer_next_version (some ⟨[3, 1], some ("a", 1), none⟩) "0.0.1" =
      .ok (.str (versionStr { release := [3, 1], pre := none, dev := none })) :=
  c3_prerelease_finalized.1 ⟨[3, 1], some ("a", 1), none⟩ "0.0.1" rfl

/-- C1: for every plain-release last version and every dotted increment
string, `infer_next_version` returns `reset_less_significant (add last inc)
inc`; in particular `infer_next_version("3.2", "0.0.1") = "3.2.1"`,
`("3.2.3", "0.1") = "3.3"`, `("3.1.2", "1.0") = "4.0"`, and
`("3.0.9", "0.0.1") = "3.0.10"`. -/
theorem c1_plain_release_arithmetic :
    (∀ (last inc : Version) (incStr : String),
      last.pre = none → last.dev = none → parseVersion incStr = some inc →
      infer_next_version (some last) incStr =
        (Version.reset_less_significant (Version.add last inc) inc).map
          NextResult.ver) ∧
    (infer_next_version (some ⟨[3, 2], none, none⟩) "0.0.1").map resultStr
      = .ok "3.2.1" ∧
    (infer_next_version (some ⟨[3, 2, 3], none, none⟩) "0.1").map resultStr
      = .ok "3.3" ∧
    (infer_next_version (some ⟨[3, 1, 2], none, none⟩) "1.0").map resultStr
      = .ok "4.0" ∧
    (infer_next_version (some ⟨[3, 0, 9], none, none⟩) "0.0.1").map resultStr
      = .ok "3.0.10" := by
  refine ⟨?_, rfl, rfl, rfl, rfl⟩
  intro last inc incStr hpre hdev hparse
  have hsem := parse_not_semantic hparse
  have hprerel : last.is_prerelease = false := by
    simp [Version.is_prerelease, hpre, hdev]
  simp [infer_next_version, hsem, hprerel, hparse]

/-- Witness for C1: the general statement applied to `3.2` and `0.0.1`. -/
theorem c1_plain_release_arithmetic_witness :
    infer_next_version (some ⟨[3, 2], none, none⟩) "0.0.1" =
      (Version.reset_less_significant
        (Version.add ⟨[3, 2], none, none⟩ ⟨[0, 0, 1], none, none⟩)
        ⟨[0, 0, 1], none, none⟩).map NextResult.ver :=
  c1_plain_release_arithmetic.1 ⟨[3, 2], none, none⟩ ⟨[0, 0, 1], none, none⟩
    "0.0.1" rfl rfl (by decide)

/-- C10: when the increment parses to a version whose release segments are
all zero and the last version is a plain release, `infer_next_version`
fails with the `TypeError` arising from `-None - 1` in `rfind`, rather than
returning a version or a parse error. -/
theorem c10_zero_increment_type_error :
    ∀ (last inc : Version) (incStr : String),
      last.pre = none → last.dev = none → parseVersion incStr = some inc →
      (∀ x ∈ inc.release, x = 0) →
      infer_next_version (some last) incStr = .error .typeError := by
  intro last inc incStr hpre hdev hparse hzero
  have hsem := parse_not_semantic hparse
  have hprerel : last.is_prerelease = false := by
    simp [Version.is_prerelease, hpre, hdev]
  have hfind : find (fun x => x != 0) inc.release.reverse = none := by
    apply find_eq_none
    intro x hx
    have hx0 : x = 0 := hzero x (List.mem_reverse.mp hx)
    simp [hx0]
  simp [infer_next_version, hsem, hprerel, hparse,
    Version.reset_less_significant, rfind, hfind, Except.map]

/-- Witness for C10: `infer_next_version("1.2", "0.0")` raises `TypeError`. -/
theorem c10_zero_increment_type_error_witness :
    infer_next_version (some ⟨[1, 2], none, none⟩) "0.0" =
      .error .typeError :=
  c10_zero_increment_type_error ⟨[1, 2], none, none⟩ ⟨[0, 0], none, none⟩
    "0.0" rfl rfl (by decide) (by decide)

/-! ## `as_number` (C9) -/

theorem foldNum_concat {ys : List Nat} (h : ys ≠ []) (s : Nat) :
    foldNum (ys ++ [s]) = foldNum ys / 10 + s := by
  cases ys with
  | nil => exact absurd rfl h
  | cons y ys => simp [foldNum, List.foldl_append]

theorem foldNum_reverse_sum (l : List Nat) :
    foldNum l.reverse =
      ∑ i in Finset.range l.length, (l.getD i 0 : ℚ) / 10 ^ i := by
  induction l with
  | nil => simp [foldNum]
  | cons s rest ih =>
    cases rest with
    | nil => simp [foldNum]
    | cons t ts =>
      have hterm : ∀ i : ℕ,
          ((s :: t :: ts).getD (i + 1) 0 : ℚ) / 10 ^ (i + 1) =
            ((t :: ts).getD i 0 : ℚ) / 10 ^ i / 10 := by
        intro i
        rw [List.getD_cons_succ, pow_succ, div_div]
      rw [List.reverse_cons, foldNum_concat (by simp) s, ih,
        show (s :: t :: ts).length = (t :: ts).length + 1 from rfl,
        Finset.sum_range_succ', Finset.sum_congr rfl fun i _ => hterm i,
        ← Finset.sum_div, List.getD_cons_zero, pow_zero, div_one]

/-- C9 (counterexample): the spec's fold `acc = s_i / 10 + acc` disagrees
with the code's `as_number` (`acc = acc / 10 + s_i`) on the version
`1.9.3`: the code yields `1.93`, the spec's formula yields `4`. -/
theorem c9_counterexample :
    Version.as_number ⟨[1, 9, 3], none, none⟩ = 193 / 100 ∧
    as_number_spec ⟨[1, 9, 3], none, none⟩ = 4 ∧
    Version.as_number ⟨[1, 9, 3], none, none⟩ ≠
      as_number_spec ⟨[1, 9, 3], none, none⟩ := by
  refine ⟨?_, ?_, ?_⟩ <;>
    norm_num [Version.as_number, as_number_spec, foldNum]

/-- C9 (amended): `as_number` folds the reversed segments with the
accumulator divided by ten at each step, `acc = acc / 10 + s_i`;
equivalently, for segments `[s0, ..., sn]` it equals the exact rational
`Σ s_i / 10 ^ i`. -/
theorem c9_as_number_closed_form :
    ∀ v : Version,
      v.as_number =
        ∑ i in Finset.range v.release.length, (v.release.getD i 0 : ℚ) / 10 ^ i :=
  fun v => foldNum_reverse_sum v.release

/-! ## The version order and Python `max` (C5, C6) -/

theorem cmpNat_lt_iff {m n : Nat} : cmpNat m n = .lt ↔ m < n := by
  unfold cmpNat
  split
  · rename_i h; simp [h]
  · rename_i h
    split
    · rename_i h2; simp; omega
    · rename_i h2; simp; omega

theorem cmpNat_eq_iff {m n : Nat} : cmpNat m n = .eq ↔ m = n := by
  unfold cmpNat
  split
  · rename_i h; simp; omega
  · rename_i h
    split
    · rename_i h2; simp [h2]
    · rename_i h2; simp [h2]

theorem cmpNat_gt_iff {m n : Nat} : cmpNat m n = .gt ↔ n < m := by
  unfold cmpNat
  split
  · rename_i h; simp; omega
  · rename_i h
    split
    · rename_i h2; simp; omega
    · rename_i h2; simp; omega

theorem cmpNat_self (n : Nat) : cmpNat n n = .eq :=
  cmpNat_eq_iff.mpr rfl

theorem cmpSeg_eq_iff : ∀ {xs ys : List Nat}, cmpSeg xs ys = .eq ↔ xs = ys := by
  intro xs
  induction xs with
  | nil => intro ys; cases ys <;> simp [cmpSeg]
  | cons x xs ih =>
    intro ys
    cases ys with
    | nil => simp [cmpSeg]
    | cons y ys =>
      simp only [cmpSeg]
      cases hc : cmpNat x y with
      | eq =>
        have hxy : x = y := cmpNat_eq_iff.mp hc
        simp [ih, hxy]
      | lt =>
        have hxy : x < y := cmpNat_lt_iff.mp hc
        simp; omega
      | gt =>
        have hxy : y < x := cmpNat_gt_iff.mp hc
        simp; omega

theorem cmpSeg_self (xs : List Nat) : cmpSeg xs xs = .eq :=
  cmpSeg_eq_iff.mpr rfl

theorem cmpSeg_swap : ∀ (xs ys : List Nat), cmpSeg ys xs = (cmpSeg xs ys).swap := by
  intro xs
  induction xs with
  | nil => intro ys; cases ys <;> rfl
  | cons x xs ih =>
    intro ys
    cases ys with
    | nil => rfl
    | cons y ys =>
      simp only [cmpSeg]
      cases hc : cmpNat x y with
      | eq =>
        have hxy : x = y := cmpNat_eq_iff.mp hc
        subst hxy
        rw [cmpNat_self]
        exact ih ys
      | lt =>
        have hxy : x < y := cmpNat_lt_iff.mp hc
        rw [cmpNat_gt_iff.mpr hxy]
        rfl
      | gt =>
        have hxy : y < x := cmpNat_gt_iff.mp hc
        rw [cmpNat_lt_iff.mpr hxy]
        rfl

theorem cmpSeg_lt_trans :
    ∀ {xs ys zs : List Nat},
      cmpSeg xs ys = .lt → cmpSeg ys zs = .lt → cmpSeg xs zs = .lt := by
  intro xs
  induction xs with
  | nil =>
    intro ys zs h1 h2
    cases ys with
    | nil => exact absurd h1 (by simp [cmpSeg])
    | cons y ys =>
      cases zs with
      | nil => exact absurd h2 (by simp [cmpSeg])
      | cons z zs => rfl
  | cons x xs ih =>
    intro ys zs h1 h2
    cases ys with
    | nil => exact absurd h1 (by simp [cmpSeg])
    | cons y ys =>
      cases zs with
      | nil => exact absurd h2 (by simp [cmpSeg])
      | cons z zs =>
        simp only [cmpSeg] at h1 h2 ⊢
        cases hxy : cmpNat x y with
        | gt => rw [hxy] at h1; exact absurd h1 (by simp)
        | eq =>
          have hxy' : x = y := cmpNat_eq_iff.mp hxy
          rw [hxy] at h1
          cases hyz : cmpNat y z with
          | gt => rw [hyz] at h2; exact absurd h2 (by simp)
          | eq =>
            have hyz' : y = z := cmpNat_eq_iff.mp hyz
            rw [hyz] at h2
            rw [cmpNat_eq_iff.mpr (hxy'.trans hyz')]
            exact ih h1 h2
          | lt =>
            have hyz' : y < z := cmpNat_lt_iff.mp hyz
            rw [cmpNat_lt_iff.mpr (by omega : x < z)]
        | lt =>
          have hxy' : x < y := cmpNat_lt_iff.mp hxy
          cases hyz : cmpNat y z with
          | gt => rw [hyz] at h2; exact absurd h2 (by simp)
          | eq =>
            have hyz' : y = z := cmpNat_eq_iff.mp hyz
            rw [cmpNat_lt_iff.mpr (by omega : x < z)]
          | lt =>
            have hyz' : y < z := cmpNat_lt_iff.mp hyz
            rw [cmpNat_lt_iff.mpr (by omega : x < z)]

theorem cmpVersion_refl (a : Version) : cmpVersion a a = .eq := by
  unfold cmpVersion
  rw [cmpSeg_self, cmpNat_self]

theorem cmpVersion_swap (a b : Version) :
    cmpVersion b a = (cmpVersion a b).swap := by
  unfold cmpVersion
  rw [cmpSeg_swap (stripZeros a.release) (stripZeros b.release)]
  cases cmpSeg (stripZeros a.release) (stripZeros b.release) with
  | eq =>
    simp only [Ordering.swap]
    cases hc : cmpNat (rank a) (rank b) with
    | eq =>
      have h := cmpNat_eq_iff.mp hc
      rw [cmpNat_eq_iff.mpr h.symm]
    | lt =>
      have h := cmpNat_lt_iff.mp hc
      rw [cmpNat_gt_iff.mpr h]
    | gt =>
      have h := cmpNat_gt_iff.mp hc
      rw [cmpNat_lt_iff.mpr h]
  | lt => rfl
  | gt => rfl

theorem cmpVersion_notlt_trans {a b c : Version}
    (h1 : cmpVersion a b ≠ .lt) (h2 : cmpVersion b c ≠ .lt) :
    cmpVersion a c ≠ .lt := by
  unfold cmpVersion at h1 h2 ⊢
  cases hab : cmpSeg (stripZeros a.release) (stripZeros b.release) with
  | lt => rw [hab] at h1; exact absurd rfl h1
  | eq =>
    have hab' : stripZeros a.release = stripZeros b.release :=
      cmpSeg_eq_iff.mp hab
    rw [hab] at h1
    rw [hab']
    cases hbc : cmpSeg (stripZeros b.release) (stripZeros c.release) with
    | lt => rw [hbc] at h2; exact absurd rfl h2
    | eq =>
      rw [hbc] at h2
      show cmpNat (rank a) (rank c) ≠ .lt
      intro hlt
      have ha : ¬ rank a < rank b := fun hh => h1 (cmpNat_lt_iff.mpr hh)
      have hb : ¬ rank b < rank c := fun hh => h2 (cmpNat_lt_iff.mpr hh)
      have hc := cmpNat_lt_iff.mp hlt
      omega
    | gt => simp
  | gt =>
    cases hbc : cmpSeg (stripZeros b.release) (stripZeros c.release) with
    | lt => rw [hbc] at h2; exact absurd rfl h2
    | eq =>
      have hbc' : stripZeros b.release = stripZeros c.release :=
        cmpSeg_eq_iff.mp hbc
      rw [← hbc', hab]
      simp
    | gt =>
      have h1g : cmpSeg (stripZeros b.release) (stripZeros a.release) = .lt := by
        rw [cmpSeg_swap, hab]; rfl
      have h2g : cmpSeg (stripZeros c.release) (stripZeros b.release) = .lt := by
        rw [cmpSeg_swap, hbc]; rfl
      have hca : cmpSeg (stripZeros c.release) (stripZeros a.release) = .lt :=
        cmpSeg_lt_trans h2g h1g
      have hac : cmpSeg (stripZeros a.release) (stripZeros c.release) = .gt := by
        rw [cmpSeg_swap, hca]; rfl
      rw [hac]
      simp

theorem max_step_notlt_left (acc x : Version) :
    cmpVersion (max_step acc x) acc ≠ .lt := by
  unfold max_step
  split
  · rename_i h
    rw [cmpVersion_swap, h]
    simp [Ordering.swap]
  · rw [cmpVersion_refl]
    simp

theorem max_step_notlt_right (acc x : Version) :
    cmpVersion (max_step acc x) x ≠ .lt := by
  unfold max_step
  split
  · rw [cmpVersion_refl]; simp
  · rename_i h; exact h

theorem foldl_max_spec :
    ∀ (l : List Version) (acc : Version),
      (l.foldl max_step acc = acc ∨ l.foldl max_step acc ∈ l) ∧
      cmpVersion (l.foldl max_step acc) acc ≠ .lt ∧
      ∀ w ∈ l, cmpVersion (l.foldl max_step acc) w ≠ .lt := by
  intro l
  induction l with
  | nil =>
    intro acc
    refine ⟨Or.inl rfl, ?_, ?_⟩
    · rw [List.foldl_nil, cmpVersion_refl]; simp
    · intro w hw; cases hw
  | cons x xs ih =>
    intro acc
    rw [List.foldl_cons]
    obtain ⟨hmem, hge, hall⟩ := ih (max_step acc x)
    refine ⟨?_, ?_, ?_⟩
    · rcases hmem with h | h
      · rw [h]
        unfold max_step
        split
        · exact Or.inr (List.mem_cons_self x xs)
        · exact Or.inl rfl
      · exact Or.inr (List.mem_cons_of_mem x h)
    · exact cmpVersion_notlt_trans hge (max_step_notlt_left acc x)
    · intro w hw
      rcases List.mem_cons.mp hw with h | h
      · rw [h]
        exact cmpVersion_notlt_trans hge (max_step_notlt_right acc x)
      · exact hall w h

theorem best_version_spec {l : List Version} {v : Version}
    (h : best_version l = some v) :
    v ∈ l ∧ ∀ w ∈ l, cmpVersion v w ≠ .lt := by
  cases l with
  | nil => exact Option.noConfusion h
  | cons p ps =>
    simp only [best_version, Option.some.injEq] at h
    subst h
    obtain ⟨hmem, hge, hall⟩ := foldl_max_spec ps p
    constructor
    · rcases hmem with h | h
      · rw [h]; exact List.mem_cons_self p ps
      · exact List.mem_cons_of_mem p h
    · intro w hw
      rcases List.mem_cons.mp hw with h | h
      · subst h; exact hge
      · exact hall w h

/-- C5: `get_tagged_version` returns the maximum parseable version among
the working copy's tags, except that when the tag `"tip"` is present and the
working copy is not modified the parent revision's tag set is used instead;
in particular working tags `{"tip"}`, not modified, parent tags `{"1.0"}`
resolves to version `1.0`. -/
theorem c5_tagged_version_max :
    (∀ (repo : Repo) (v : Version), get_tagged_version repo = some v →
      v ∈ versions_from_tags
          (if "tip" ∈ repo.tags ∧ repo.modified = false then repo.parent_tags
           else repo.tags) ∧
      ∀ w ∈ versions_from_tags
          (if "tip" ∈ repo.tags ∧ repo.modified = false then repo.parent_tags
           else repo.tags),
        cmpVersion v w ≠ .lt) ∧
    get_tagged_version ⟨["tip"], ["1.0"], [], false⟩ =
      some ⟨[1, 0], none, none⟩ := by
  refine ⟨?_, by decide⟩
  intro repo v h
  simp only [get_tagged_version] at h
  exact best_version_spec h

/-- Witness for C5: the general statement applied to the working tags
`{"tip"}`, unmodified, with parent tags `{"1.0"}`. -/
theorem c5_tagged_version_max_witness :
    (⟨[1, 0], none, none⟩ : Version) ∈ versions_from_tags
        (if "tip" ∈ (Repo.mk ["tip"] ["1.0"] [] false).tags ∧
            (Repo.mk ["tip"] ["1.0"] [] false).modified = false
         then (Repo.mk ["tip"] ["1.0"] [] false).parent_tags
         else (Repo.mk ["tip"] ["1.0"] [] false).tags) :=
  (c5_tagged_version_max.1 (Repo.mk ["tip"] ["1.0"] [] false)
    ⟨[1, 0], none, none⟩ (by decide)).1

/-- C6: `get_tagged_version` and `get_latest_version` are total: a tag that
fails to parse is silently skipped, and when no tag parses the result is
`none` rather than an exception; in particular tags `{"foo", "bar", "3.0"}`
yield version `3.0`, while `{}` and `{"foo", "bar"}` yield `none`. -/
theorem c6_unparseable_tags_skipped :
    (∀ (tags : List String) (t : String), parseVersion t = none →
      versions_from_tags (t :: tags) = versions_from_tags tags) ∧
    (∀ repo : Repo,
      versions_from_tags
          (if "tip" ∈ repo.tags ∧ repo.modified = false then repo.parent_tags
           else repo.tags) = [] →
      get_tagged_version repo = none) ∧
    (∀ repo : Repo, versions_from_tags repo.repo_tags = [] →
      get_latest_version repo = none) ∧
    get_tagged_version ⟨["foo", "bar", "3.0"], [], [], true⟩ =
      some ⟨[3, 0], none, none⟩ ∧
    get_tagged_version ⟨[], [], [], false⟩ = none ∧
    get_tagged_version ⟨["foo", "bar"], [], [], false⟩ = none := by
  refine ⟨?_, ?_, ?_, by decide, by decide, by decide⟩
  · intro tags t h
    simp [versions_from_tags, h]
  · intro repo h
    simp only [get_tagged_version]
    rw [h]
    rfl
  · intro repo h
    simp only [get_latest_version]
    rw [h]
    rfl

/-- Witness for C6: skipping the unparseable tag `"foo"`, the empty parsed
tag set giving `none`, and both on a concrete repository. -/
theorem c6_unparseable_tags_skipped_witness :
    versions_from_tags ("foo" :: ["bar", "3.0"]) =
      versions_from_tags ["bar", "3.0"] :=
  c6_unparseable_tags_skipped.1 ["bar", "3.0"] "foo" (by decide)

/-! ## Idempotence of `reset_less_significant` (C8) -/

theorem dropWhile_replicate_zero_append (m : Nat) (ys : List Nat) :
    List.dropWhile (fun x => x == 0) (List.replicate m 0 ++ ys) =
      List.dropWhile (fun x => x == 0) ys := by
  induction m with
  | zero => rfl
  | succ m ih => simp [List.replicate_succ, ih]

theorem stripZeros_append_replicate (xs : List Nat) (m : Nat) :
    stripZeros (xs ++ List.replicate m 0) = stripZeros xs := by
  unfold stripZeros
  rw [List.reverse_append, List.reverse_replicate,
    dropWhile_replicate_zero_append]

/-- C8: `reset_less_significant` is idempotent: whenever it succeeds on `v`
with significant version `s` (that is, `s` has a nonzero release segment),
applying it again with the same `s` succeeds and yields the same version
(equal as versions, i.e. equal release segments up to trailing zeros and
equal markers). -/
theorem c8_reset_idempotent :
    ∀ (v s w : Version), Version.reset_less_significant v s = .ok w →
      ∃ w', Version.reset_less_significant w s = .ok w' ∧ vkey w' = vkey w := by
  intro v s w h
  simp only [Version.reset_less_significant] at h ⊢
  cases hr : rfind (fun x => x != 0) s.release with
  | none => rw [hr] at h; exact Except.noConfusion h
  | some r =>
    rw [hr] at h
    injection h with h
    subst h
    refine ⟨_, rfl, ?_⟩
    simp only [vkey, Prod.mk.injEq, and_true]
    rw [List.take_append_eq_append_take, List.take_take, Nat.min_self,
      List.take_replicate, List.append_assoc, ← List.replicate_add,
      stripZeros_append_replicate, stripZeros_append_replicate]

/-- Witness for C8: resetting `3.1.2` at significance `0.1` gives `3.1`,
and resetting again is stable. -/
theorem c8_reset_idempotent_witness :
    (Version.reset_less_significant ⟨[3, 1], none, none⟩
        ⟨[0, 1], none, none⟩).map vkey = .ok (vkey ⟨[3, 1], none, none⟩) := by
  obtain ⟨w', hw, hk⟩ :=
    c8_reset_idempotent ⟨[3, 1, 2], none, none⟩ ⟨[0, 1], none, none⟩
      ⟨[3, 1], none, none⟩ rfl
  rw [hw, show (Except.ok w').map vkey = Except.ok (vkey w') from rfl, hk]

end Versioning
